import Mathlib

/-!
Verification of the xml2csv flattening core.

Shallow embedding of `src/xml2csv.py`.  An XML element is modelled as an
`XNode` (tag, text, ordered children); Python dicts keyed by strings or
path tuples are modelled as association lists with insertion-order
semantics (`alook` for lookup, `odSet` for the OrderedDict assignment
that updates in place or appends).  Every function below follows the
corresponding Python function of the source; the worklist loop of
`extract_rows_for_element` is totalized with an explicit fuel argument
(`expandLoop`), and the theorems prove that the chosen fuel always
suffices, which is exactly the termination argument of the source loop.
-/

/-- An XML element: tag, text (empty string when absent) and ordered children.
Mirrors the read-only view the code takes of `xml.etree.ElementTree.Element`. -/
inductive XNode : Type where
  | node (tag : String) (text : String) (children : List XNode)

def XNode.tag : XNode → String
  | node t _ _ => t

def XNode.text : XNode → String
  | node _ s _ => s

def XNode.children : XNode → List XNode
  | node _ _ cs => cs

/-- `PathKey` from the source: tuple of tags from a traversal root down to a node. -/
abbrev PathKey := List String

/-- A `Selection` maps group keys to chosen child indices (`Dict[PathKey, int]`).
Keys are only ever inserted fresh, so an association list is a faithful model. -/
abbrev Selection := List (PathKey × Nat)

/-- Python dict lookup on an association list (keys are unique at every use site). -/
def alook {α β : Type} [DecidableEq α] : List (α × β) → α → Option β
  | [], _ => none
  | (k, v) :: m, q => if k = q then some v else alook m q

/-- Python dict / OrderedDict assignment `m[k] = v`: update in place if the key is
present (keeping its position), otherwise append at the end. -/
def odSet {α β : Type} [DecidableEq α] : List (α × β) → α → β → List (α × β)
  | [], k, v => [(k, v)]
  | (k', v') :: m, k, v => if k' = k then (k', v) :: m else (k', v') :: odSet m k v

/-- One iteration of the loop in `get_children_by_tag`:
`children_by_tag.setdefault(child.tag, []).append(child)`. -/
def addToGroups : List (String × List XNode) → XNode → List (String × List XNode)
  | [], c => [(c.tag, [c])]
  | (t, ns) :: gs, c =>
    if t = c.tag then (t, ns ++ [c]) :: gs else (t, ns) :: addToGroups gs c

/-- `get_children_by_tag`: group the direct children by tag, in first-seen tag order
(Python dict iteration order is insertion order). -/
def get_children_by_tag (n : XNode) : List (String × List XNode) :=
  n.children.foldl addToGroups []

/-- `first_repeating_child_tag`: the first tag (in first-seen order) with ≥ 2 children. -/
def first_repeating_child_tag (n : XNode) : Option String :=
  ((get_children_by_tag n).find? (fun g => decide (1 < g.2.length))).map (fun g => g.1)

/-- The BFS queue loop inside `find_row_parent_and_tag`.  `queue.pop(0)` and
`queue.extend(list(parent))` make it first-in-first-out. -/
def bfsRowSearch : List XNode → Option (XNode × String × List XNode)
  | [] => none
  | n :: queue =>
    match first_repeating_child_tag n with
    | some t => some (n, t, (alook (get_children_by_tag n) t).getD [])
    | none => bfsRowSearch (queue ++ n.children)
termination_by q => sizeOf q
decreasing_by
  have happ : ∀ (l1 l2 : List XNode), sizeOf (l1 ++ l2) + 1 = sizeOf l1 + sizeOf l2 := by
    intro l1 l2
    induction l1 with
    | nil => simp; omega
    | cons a l ih => simp only [List.cons_append, List.cons.sizeOf_spec]; omega
  cases n with
  | node t x cs =>
    have h1 := happ queue cs
    simp only [XNode.children, List.cons.sizeOf_spec, XNode.node.sizeOf_spec] at *
    omega

/-- `find_row_parent_and_tag`: BFS for the first element with a repeating child tag;
if none exists the root itself is the single row element. -/
def find_row_parent_and_tag (root : XNode) : Option XNode × String × List XNode :=
  match bfsRowSearch [root] with
  | some (p, t, els) => (some p, t, els)
  | none => (none, root.tag, [root])

/-- `compute_repeating_group_keys`: repeating groups directly under `n`,
as (group key, tag, children). -/
def compute_repeating_group_keys (n : XNode) (parentPath : PathKey) :
    List (PathKey × String × List XNode) :=
  (get_children_by_tag n).filterMap (fun g =>
    if 1 < g.2.length then some (parentPath ++ [g.1], g.1, g.2) else none)

/-- `find_next_unselected_repeating_group`: depth-first search for the first
repeating group (reachable through singleton children only) whose key is not in
`selection`.  Callers pass `[root.tag]` for the defaulted `path_prefix`. -/
def find_next_unselected_repeating_group (root : XNode) (selection : Selection)
    (pathPref : PathKey) : Option (PathKey × List XNode) :=
  match (compute_repeating_group_keys root pathPref).find?
      (fun g => (alook selection g.1).isNone) with
  | some g => some (g.1, g.2.2)
  | none =>
    root.children.attach.findSome? (fun c =>
      if ((alook (get_children_by_tag root) c.val.tag).getD []).length = 1 then
        find_next_unselected_repeating_group c.val selection (pathPref ++ [c.val.tag])
      else none)
termination_by sizeOf root
decreasing_by
  cases root with
  | node t x cs =>
    have h1 : sizeOf c.val < sizeOf cs := List.sizeOf_lt_of_mem c.property
    simp only [XNode.node.sizeOf_spec]
    omega

/-- Executable model of Python `str.strip()`: drop whitespace from both ends.
(`String.trim` of the library is extensionally the same but is defined through
`Substring` helpers that do not reduce; the embedding needs evaluation.) -/
def pytrim (s : String) : String :=
  ⟨((s.data.dropWhile Char.isWhitespace).reverse.dropWhile Char.isWhitespace).reverse⟩

/-- `iter_scalar_leaves`: all scalar leaves reachable from `n` under `selection`;
an unselected repeating group is skipped entirely, a selected one is entered only
at its selected index (`0 <= idx < len(siblings)`), and a singleton child is
entered unconditionally (`siblings[0]`).  Callers pass `[n.tag]` for the
defaulted `path`. -/
def iter_scalar_leaves (n : XNode) (selection : Selection) (path : PathKey) :
    List (PathKey × String) :=
  if n.children.isEmpty then [(path, pytrim n.text)]
  else
    (get_children_by_tag n).attach.flatMap (fun g =>
      if 1 < g.val.2.length then
        match alook selection (path ++ [g.val.1]) with
        | some idx =>
          if hidx : idx < g.val.2.length then
            iter_scalar_leaves (g.val.2.get ⟨idx, hidx⟩) selection (path ++ [g.val.1])
          else []
        | none => []
      else
        if h0 : 0 < g.val.2.length then
          iter_scalar_leaves (g.val.2.get ⟨0, h0⟩) selection (path ++ [g.val.1])
        else [])
termination_by sizeOf n
decreasing_by
  all_goals
    first
    | have hmemgrp : g.val.2.get ⟨idx, hidx⟩ ∈ g.val.2 := List.get_mem _ _ _
    | have hmemgrp : g.val.2.get ⟨0, h0⟩ ∈ g.val.2 := List.get_mem _ _ _
  all_goals
    have hgroups : ∀ (cs : List XNode) (gs : List (String × List XNode))
        (p : String × List XNode), p ∈ cs.foldl addToGroups gs →
        ∀ c ∈ p.2, (∃ q ∈ gs, c ∈ q.2) ∨ c ∈ cs := by
      intro cs
      induction cs with
      | nil => intro gs p hp c hc; exact Or.inl ⟨p, hp, hc⟩
      | cons y ys ih =>
        intro gs p hp c hc
        have step : ∀ (gs' : List (String × List XNode)) (p' : String × List XNode),
            p' ∈ addToGroups gs' y → ∀ c' ∈ p'.2, (∃ q ∈ gs', c' ∈ q.2) ∨ c' = y := by
          intro gs'
          induction gs' with
          | nil =>
            intro p' hp' c' hc'
            simp only [addToGroups, List.mem_singleton] at hp'
            subst hp'
            simp only [List.mem_singleton] at hc'
            exact Or.inr hc'
          | cons q qs ihq =>
            intro p' hp' c' hc'
            obtain ⟨qt, qns⟩ := q
            by_cases hq : qt = y.tag
            · simp only [addToGroups, if_pos hq, List.mem_cons] at hp'
              rcases hp' with hp' | hp'
              · subst hp'
                simp only [List.mem_append, List.mem_singleton] at hc'
                rcases hc' with hc' | hc'
                · exact Or.inl ⟨(qt, qns), List.mem_cons_self _ _, hc'⟩
                · exact Or.inr hc'
              · exact Or.inl ⟨p', List.mem_cons_of_mem _ hp', hc'⟩
            · simp only [addToGroups, if_neg hq, List.mem_cons] at hp'
              rcases hp' with hp' | hp'
              · subst hp'
                exact Or.inl ⟨(qt, qns), List.mem_cons_self _ _, hc'⟩
              · rcases ihq p' hp' c' hc' with ⟨q', hq', hcq'⟩ | h
                · exact Or.inl ⟨q', List.mem_cons_of_mem _ hq', hcq'⟩
                · exact Or.inr h
        rcases ih (addToGroups gs y) p hp c hc with ⟨q, hq, hcq⟩ | h
        · rcases step gs q hq c hcq with ⟨q', hq', hcq'⟩ | h
          · exact Or.inl ⟨q', hq', hcq'⟩
          · exact Or.inr (h ▸ List.mem_cons_self _ _)
        · exact Or.inr (List.mem_cons_of_mem _ h)
  all_goals
    cases n with
    | node t x cs =>
      rcases hgroups cs [] g.val g.property _ hmemgrp with ⟨q, hq, _⟩ | hmemch
      · simp at hq
      · have h1 := List.sizeOf_lt_of_mem hmemch
        simp only [XNode.node.sizeOf_spec]
        omega

/-- One iteration of the loop in `build_container_values`: skip leaves under the
row-tag group directly below the row parent, skip empty trimmed text, then
`values[path[-1]] = text` (OrderedDict assignment). -/
def containerCollect (rpTag : String) (row_tag : String)
    (values : List (String × String)) (pt : PathKey × String) : List (String × String) :=
  if 2 ≤ pt.1.length ∧ pt.1.head? = some rpTag ∧ pt.1[1]? = some row_tag then values
  else if pt.2 = "" then values
  else odSet values (pt.1.getLastD "") pt.2

/-- `build_container_values`: scalar leaves of the row parent under the empty
selection (which skips every repeating group), excluding the row-tag subtree,
keyed by their leaf tag only. -/
def build_container_values (row_parent : Option XNode) (row_tag : String) :
    List (String × String) :=
  match row_parent with
  | none => []
  | some rp =>
    (iter_scalar_leaves rp [] [rp.tag]).foldl (containerCollect rp.tag row_tag) []

/-- The `while True` suffix loop of `disambiguate_column_name`, with fuel.
`existing.length + 1` candidate names `dotted_2 … dotted_(existing.length + 2)`
are pairwise distinct, so the fuel passed by `disambiguate_column_name` always
suffices and the fuel-exhausted branch is unreachable. -/
def disambiguateFrom (existing : List (String × PathKey)) (dotted : String) :
    Nat → Nat → String
  | 0, i => dotted ++ "_" ++ toString i
  | fuel + 1, i =>
    let alt := dotted ++ "_" ++ toString i
    if (alook existing alt).isSome then disambiguateFrom existing dotted fuel (i + 1)
    else alt

/-- `disambiguate_column_name`: prefer the candidate, else the dotted full path,
else the dotted path with the smallest free numeric suffix ≥ 2. -/
def disambiguate_column_name (candidate : String) (full_path : PathKey)
    (existing : List (String × PathKey)) : String :=
  if (alook existing candidate).isNone then candidate
  else
    let dotted := String.intercalate "." full_path
    if (alook existing dotted).isNone then dotted
    else disambiguateFrom existing dotted (existing.length + 1) 2

/-- `HeaderState` of the design: `header_order` (first-seen column order) and
`header_paths` (column name → PathKey that justified it), threaded through all
extraction calls of one output target. -/
structure HState where
  order : List String
  paths : List (String × PathKey)
deriving DecidableEq

/-- `if col not in header_paths: header_paths[col] = full_path; header_order.append(col)`. -/
def registerCol (h : HState) (col : String) (fullPath : PathKey) : HState :=
  if (alook h.paths col).isNone then ⟨h.order ++ [col], h.paths ++ [(col, fullPath)]⟩
  else h

/-- One iteration of the container-value loop of `extract_rows_for_element`
(lines seeding the row map with container values and registering their headers).
`rpTag` is `row_parent.tag` when the row parent exists. -/
def containerStep (rpTag : Option String) (st : HState × List (String × String))
    (cv : String × String) : HState × List (String × String) :=
  let col :=
    match rpTag with
    | none => cv.1
    | some pt =>
      match alook st.1.paths cv.1 with
      | some p =>
        if p ≠ [pt, cv.1] then disambiguate_column_name cv.1 [pt, cv.1] st.1.paths
        else cv.1
      | none => cv.1
  let fullPath : PathKey :=
    match rpTag with
    | some pt => [pt, cv.1]
    | none => [cv.1]
  let h' := registerCol st.1 col fullPath
  let rowMap' :=
    if (alook st.2 col).isNone then st.2 ++ [(col, cv.2)] else st.2
  (h', rowMap')

/-- The naming part of one iteration of the row-subtree loop of
`extract_rows_for_element`: compute the effective path, suppress empty trimmed
text (`none`), otherwise pick the column name for this leaf against the current
header state.  Returns (column, effective path, text). -/
def subtreeNaming (rpTag : Option String) (row_tag : String) (h : HState)
    (pt : PathKey × String) : Option (String × PathKey × String) :=
  let effectivePath :=
    match rpTag with
    | some rpt =>
      if 2 ≤ pt.1.length ∧ pt.1.head? = some rpt ∧ pt.1[1]? = some row_tag then
        pt.1.drop 1
      else pt.1
    | none => pt.1
  if pt.2 = "" then none
  else
    let cand := effectivePath.getLastD ""
    let col :=
      match alook h.paths cand with
      | some p =>
        if p ≠ effectivePath then disambiguate_column_name cand effectivePath h.paths
        else cand
      | none => cand
    some (col, effectivePath, pt.2)

/-- One iteration of the row-subtree loop of `extract_rows_for_element`:
register the chosen column if new and write `row_map[col] = text` (overwriting). -/
def subtreeStep (rpTag : Option String) (row_tag : String)
    (st : HState × List (String × String)) (pt : PathKey × String) :
    HState × List (String × String) :=
  match subtreeNaming rpTag row_tag st.1 pt with
  | none => st
  | some (col, eff, text) => (registerCol st.1 col eff, odSet st.2 col text)

/-- Ghost projection of the row-subtree loop: the sequence of `(column, text)`
assignments it performs, threading the header state exactly as `subtreeStep` does. -/
def subtreeWrites (rpTag : Option String) (row_tag : String) :
    HState → List (PathKey × String) → List (String × String)
  | _, [] => []
  | h, pt :: pts =>
    match subtreeNaming rpTag row_tag h pt with
    | none => subtreeWrites rpTag row_tag h pts
    | some (col, eff, text) =>
      (col, text) :: subtreeWrites rpTag row_tag (registerCol h col eff) pts

/-- `new_sel = dict(sel); new_sel[group_key] = idx` for a key not yet in `sel`. -/
def selInsert (sel : Selection) (k : PathKey) (idx : Nat) : Selection :=
  (k, idx) :: sel

/-- The worklist loop of `extract_rows_for_element` (lines 257–267), fuel-totalized.
The Python list used as a stack (`append` / `pop()` at the end) is modelled with
the head as the top, so pushing indices 0..N-1 puts index N-1 on top. -/
def expandLoop (row_elem : XNode) :
    Nat → List Selection → List Selection → Option (List Selection)
  | _, [], finalized => some finalized
  | 0, _ :: _, _ => none
  | fuel + 1, sel :: pending, finalized =>
    match find_next_unselected_repeating_group row_elem sel [row_elem.tag] with
    | none => expandLoop row_elem fuel pending (finalized ++ [sel])
    | some (k, children) =>
      expandLoop row_elem fuel
        (((List.range children.length).map (fun idx => selInsert sel k idx)).reverse
          ++ pending)
        finalized

/-- The nested repeating groups reachable from `n` through singleton-only paths,
in the deterministic discovery order of `find_next_unselected_repeating_group`:
groups at `n` first (first-seen tag order), then the groups of each singleton
child in document order. -/
def reachGroups (n : XNode) (pathPref : PathKey) : List (PathKey × List XNode) :=
  (compute_repeating_group_keys n pathPref).map (fun g => (g.1, g.2.2)) ++
    n.children.attach.flatMap (fun c =>
      if ((alook (get_children_by_tag n) c.val.tag).getD []).length = 1 then
        reachGroups c.val (pathPref ++ [c.val.tag])
      else [])
termination_by sizeOf n
decreasing_by
  cases n with
  | node t x cs =>
    have h1 : sizeOf c.val < sizeOf cs := List.sizeOf_lt_of_mem c.property
    simp only [XNode.node.sizeOf_spec]
    omega

/-- Exact number of worklist iterations needed to exhaust a list of groups:
`1` pop to finalize plus, per group, one pop that fans out over its children. -/
def cartCount : List (PathKey × List XNode) → Nat
  | [] => 1
  | g :: gs => 1 + g.2.length * cartCount gs

/-- Specification of the worklist's output: last-in-first-out Cartesian expansion
of a group list, highest index first. -/
def cartExpand : List (PathKey × List XNode) → Selection → List Selection
  | [], sel => [sel]
  | g :: gs, sel =>
    ((List.range g.2.length).reverse).flatMap (fun i => cartExpand gs (selInsert sel g.1 i))

/-- The groups of `reachGroups row_elem` not yet covered by `sel`. -/
def unselList (row_elem : XNode) (sel : Selection) : List (PathKey × List XNode) :=
  (reachGroups row_elem [row_elem.tag]).filter (fun g => (alook sel g.1).isNone)

/-- The finalized selections of the worklist loop (`pending = [{}]` seed), with
fuel that the theorems prove sufficient. -/
def expandSelections (row_elem : XNode) : List Selection :=
  (expandLoop row_elem (cartCount (reachGroups row_elem [row_elem.tag])) [[]] []).getD []

/-- Build one row (`row_map`) for one finalized selection: container values first
(registering their headers), then the row-subtree values. -/
def buildRow (row_elem : XNode) (rpTag : Option String) (row_tag : String)
    (containerValues : List (String × String)) (h : HState) (sel : Selection) :
    HState × List (String × String) :=
  let st1 := containerValues.foldl (containerStep rpTag) (h, [])
  (iter_scalar_leaves row_elem sel [row_elem.tag]).foldl (subtreeStep rpTag row_tag) st1

/-- The `for sel in finalized` loop: one row appended per finalized selection,
threading the header state left to right. -/
def rowsFromSels (row_elem : XNode) (rpTag : Option String) (row_tag : String)
    (containerValues : List (String × String)) :
    List Selection → HState → List (List (String × String)) × HState
  | [], h => ([], h)
  | sel :: sels, h =>
    let hr := buildRow row_elem rpTag row_tag containerValues h sel
    let rest := rowsFromSels row_elem rpTag row_tag containerValues sels hr.1
    (hr.2 :: rest.1, rest.2)

/-- `extract_rows_for_element`: container values, Cartesian expansion of nested
repeating groups, then one row per finalized selection. -/
def extract_rows_for_element (row_elem : XNode) (row_parent : Option XNode)
    (row_tag : String) (h : HState) : List (List (String × String)) × HState :=
  let containerValues := build_container_values row_parent row_tag
  rowsFromSels row_elem (row_parent.map XNode.tag) row_tag containerValues
    (expandSelections row_elem) h

/-- The `for row_elem in row_elements` loop shared by `convert_xml_to_csv` and
`extract_table_from_file`. -/
def extractElems (row_parent : Option XNode) (row_tag : String) :
    List XNode → HState → List (List (String × String)) × HState
  | [], h => ([], h)
  | e :: es, h =>
    let r1 := extract_rows_for_element e row_parent row_tag h
    let r2 := extractElems row_parent row_tag es r1.2
    (r1.1 ++ r2.1, r2.2)

/-- `extract_table_from_file` on an already-parsed document: locate the row
parent and extract all rows, updating the shared header state. -/
def extract_table (root : XNode) (h : HState) : List (List (String × String)) × HState :=
  match find_row_parent_and_tag root with
  | (rp, rt, els) => extractElems rp rt els h

/-- The merge loop of `main`: documents processed strictly sequentially against
one shared header state, rows concatenated. -/
def extract_tables : List XNode → HState → List (List (String × String)) × HState
  | [], h => ([], h)
  | d :: ds, h =>
    let r1 := extract_table d h
    let r2 := extract_tables ds r1.2
    (r1.1 ++ r2.1, r2.2)

/-- `True` iff no node of the tree has a repeating direct-child tag. -/
def allSingle (n : XNode) : Bool :=
  (first_repeating_child_tag n).isNone && n.children.attach.all (fun c => allSingle c.val)
termination_by sizeOf n
decreasing_by
  cases n with
  | node t x cs =>
    have h1 : sizeOf c.val < sizeOf cs := List.sizeOf_lt_of_mem c.property
    simp only [XNode.node.sizeOf_spec]
    omega

/-! ## Helper lemmas: eliminating `attach`, unfolding the recursive functions -/

theorem attachWith_flatMap {α β : Type} (l : List α) (P : α → Prop) (f : α → List β) :
    ∀ (H : ∀ x ∈ l, P x), ((l.attachWith P H).flatMap fun x => f x.val) = l.flatMap f := by
  induction l with
  | nil => intro H; rfl
  | cons a l ih =>
    intro H
    rw [List.attachWith_cons]
    simp only [List.flatMap_cons]
    rw [ih]

theorem attachWith_findSome {α β : Type} (l : List α) (P : α → Prop) (f : α → Option β) :
    ∀ (H : ∀ x ∈ l, P x),
      ((l.attachWith P H).findSome? fun x => f x.val) = l.findSome? f := by
  induction l with
  | nil => intro H; rfl
  | cons a l ih =>
    intro H
    rw [List.attachWith_cons]
    cases hfa : f a <;> simp [List.findSome?_cons, hfa, ih]

theorem attachWith_all {α : Type} (l : List α) (P : α → Prop) (f : α → Bool) :
    ∀ (H : ∀ x ∈ l, P x), ((l.attachWith P H).all fun x => f x.val) = l.all f := by
  induction l with
  | nil => intro H; rfl
  | cons a l ih =>
    intro H
    rw [List.attachWith_cons]
    simp only [List.all_cons, ih]

theorem attach_flatMap {α β : Type} (l : List α) (f : α → List β) :
    (l.attach.flatMap fun x => f x.val) = l.flatMap f :=
  attachWith_flatMap l _ f _

theorem attach_findSome {α β : Type} (l : List α) (f : α → Option β) :
    (l.attach.findSome? fun x => f x.val) = l.findSome? f :=
  attachWith_findSome l _ f _

theorem attach_all {α : Type} (l : List α) (f : α → Bool) :
    (l.attach.all fun x => f x.val) = l.all f :=
  attachWith_all l _ f _

theorem iter_scalar_leaves_node (t x : String) (cs : List XNode) (sel : Selection)
    (path : PathKey) :
    iter_scalar_leaves (XNode.node t x cs) sel path =
      if cs.isEmpty then [(path, pytrim x)]
      else
        (get_children_by_tag (XNode.node t x cs)).flatMap (fun g =>
          if 1 < g.2.length then
            match alook sel (path ++ [g.1]) with
            | some idx =>
              if hidx : idx < g.2.length then
                iter_scalar_leaves (g.2.get ⟨idx, hidx⟩) sel (path ++ [g.1])
              else []
            | none => []
          else
            if h0 : 0 < g.2.length then
              iter_scalar_leaves (g.2.get ⟨0, h0⟩) sel (path ++ [g.1])
            else []) := by
  rw [iter_scalar_leaves]
  simp only [XNode.children, XNode.text]
  by_cases h : cs.isEmpty
  · simp only [h, if_true]
  · simp only [h, if_false]
    exact attach_flatMap (get_children_by_tag (XNode.node t x cs)) (fun g =>
      if 1 < g.2.length then
        match alook sel (path ++ [g.1]) with
        | some idx =>
          if hidx : idx < g.2.length then
            iter_scalar_leaves (g.2.get ⟨idx, hidx⟩) sel (path ++ [g.1])
          else []
        | none => []
      else
        if h0 : 0 < g.2.length then
          iter_scalar_leaves (g.2.get ⟨0, h0⟩) sel (path ++ [g.1])
        else [])

theorem find_next_node (t x : String) (cs : List XNode) (sel : Selection) (p : PathKey) :
    find_next_unselected_repeating_group (XNode.node t x cs) sel p =
      match (compute_repeating_group_keys (XNode.node t x cs) p).find?
          (fun g => (alook sel g.1).isNone) with
      | some g => some (g.1, g.2.2)
      | none =>
        cs.findSome? (fun c =>
          if ((alook (get_children_by_tag (XNode.node t x cs)) c.tag).getD []).length = 1
          then find_next_unselected_repeating_group c sel (p ++ [c.tag])
          else none) := by
  rw [find_next_unselected_repeating_group]
  cases hf : (compute_repeating_group_keys (XNode.node t x cs) p).find?
      (fun g => (alook sel g.1).isNone) with
  | some g => rfl
  | none =>
    simp only [XNode.children]
    exact attach_findSome cs (fun c =>
      if ((alook (get_children_by_tag (XNode.node t x cs)) c.tag).getD []).length = 1
      then find_next_unselected_repeating_group c sel (p ++ [c.tag])
      else none)

theorem reachGroups_node (t x : String) (cs : List XNode) (p : PathKey) :
    reachGroups (XNode.node t x cs) p =
      (compute_repeating_group_keys (XNode.node t x cs) p).map (fun g => (g.1, g.2.2)) ++
        cs.flatMap (fun c =>
          if ((alook (get_children_by_tag (XNode.node t x cs)) c.tag).getD []).length = 1
          then reachGroups c (p ++ [c.tag])
          else []) := by
  rw [reachGroups]
  simp only [XNode.children]
  congr 1
  exact attach_flatMap cs (fun c =>
    if ((alook (get_children_by_tag (XNode.node t x cs)) c.tag).getD []).length = 1
    then reachGroups c (p ++ [c.tag])
    else [])

theorem allSingle_node (t x : String) (cs : List XNode) :
    allSingle (XNode.node t x cs) =
      ((first_repeating_child_tag (XNode.node t x cs)).isNone && cs.all allSingle) := by
  rw [allSingle]
  simp only [XNode.children]
  congr 1
  exact attach_all cs allSingle

/-! ## Association list and grouping lemmas -/

theorem alook_eq_none {α β : Type} [DecidableEq α] (m : List (α × β)) (q : α) :
    alook m q = none ↔ q ∉ m.map Prod.fst := by
  induction m with
  | nil => simp [alook]
  | cons kv m ih =>
    obtain ⟨k, v⟩ := kv
    by_cases h : k = q
    · simp [alook, h]
    · simp [alook, h, ih, Ne.symm h]

theorem alook_append {α β : Type} [DecidableEq α] (m1 m2 : List (α × β)) (q : α) :
    alook (m1 ++ m2) q = (alook m1 q).or (alook m2 q) := by
  induction m1 with
  | nil => simp [alook]
  | cons kv m ih =>
    obtain ⟨k, v⟩ := kv
    by_cases h : k = q <;> simp [alook, h, ih]

theorem alook_odSet {α β : Type} [DecidableEq α] (m : List (α × β)) (k : α) (v : β) (q : α) :
    alook (odSet m k v) q = if k = q then some v else alook m q := by
  induction m with
  | nil => simp [odSet, alook]
  | cons kv m ih =>
    obtain ⟨k', v'⟩ := kv
    by_cases h : k' = k
    · subst h
      by_cases h2 : k' = q <;> simp [odSet, alook, h2]
    · by_cases h2 : k' = q
      · subst h2
        simp [odSet, alook, h, Ne.symm h]
      · simp [odSet, alook, h, h2, ih]

theorem addToGroups_keys (gs : List (String × List XNode)) (c : XNode) :
    (addToGroups gs c).map Prod.fst =
      if c.tag ∈ gs.map Prod.fst then gs.map Prod.fst
      else gs.map Prod.fst ++ [c.tag] := by
  induction gs with
  | nil => simp [addToGroups]
  | cons g gs ih =>
    obtain ⟨t, ns⟩ := g
    by_cases h : t = c.tag
    · simp [addToGroups, h]
    · have hne : ¬ c.tag = t := fun hh => h hh.symm
      by_cases h2 : c.tag ∈ gs.map Prod.fst
      · simp [addToGroups, h, ih, h2, hne]
      · simp [addToGroups, h, ih, h2, hne]

theorem get_children_by_tag_keys_nodup (n : XNode) :
    ((get_children_by_tag n).map Prod.fst).Nodup := by
  have gen : ∀ (cs : List XNode) (gs : List (String × List XNode)),
      (gs.map Prod.fst).Nodup → ((cs.foldl addToGroups gs).map Prod.fst).Nodup := by
    intro cs
    induction cs with
    | nil => intro gs h; exact h
    | cons c cs ih =>
      intro gs h
      apply ih
      rw [addToGroups_keys]
      by_cases h2 : c.tag ∈ gs.map Prod.fst
      · simpa [h2] using h
      · simp only [h2, if_false]
        exact List.Nodup.append h (List.nodup_singleton _)
          (by simpa [List.disjoint_singleton] using h2)
  exact gen n.children [] (by simp)

theorem addToGroups_alook (gs : List (String × List XNode)) (c : XNode) (t : String) :
    (alook (addToGroups gs c) t).getD [] =
      (alook gs t).getD [] ++ (if c.tag = t then [c] else []) := by
  induction gs with
  | nil =>
    by_cases h : c.tag = t <;> simp [addToGroups, alook, h]
  | cons g gs ih =>
    obtain ⟨tg, ns⟩ := g
    by_cases h : tg = c.tag
    · by_cases h2 : tg = t
      · have hct : c.tag = t := (h.symm.trans h2 : _)
        simp [addToGroups, h, alook, h2, hct]
      · have hct : ¬ c.tag = t := fun hh => h2 (h.trans hh)
        simp [addToGroups, h, alook, h2, hct]
    · by_cases h2 : tg = t
      · have hct : ¬ c.tag = t := fun hh => h (h2.trans hh.symm)
        have h' : ¬ t = c.tag := fun hh => hct hh.symm
        simp [addToGroups, h, alook, h2, hct, h']
      · simp [addToGroups, h, alook, h2, ih]

theorem get_children_by_tag_alook (n : XNode) (t : String) :
    (alook (get_children_by_tag n) t).getD [] =
      n.children.filter (fun c => decide (c.tag = t)) := by
  have gen : ∀ (cs : List XNode) (gs : List (String × List XNode)),
      (alook (cs.foldl addToGroups gs) t).getD [] =
        (alook gs t).getD [] ++ cs.filter (fun c => decide (c.tag = t)) := by
    intro cs
    induction cs with
    | nil => intro gs; simp
    | cons c cs ih =>
      intro gs
      rw [List.foldl_cons, ih, addToGroups_alook]
      by_cases h : c.tag = t <;> simp [h, List.filter_cons]
  have h0 := gen n.children []
  simpa [get_children_by_tag, alook] using h0

theorem alook_of_mem_nodup {α β : Type} [DecidableEq α] (m : List (α × β)) (k : α) (v : β)
    (hmem : (k, v) ∈ m) (hnd : (m.map Prod.fst).Nodup) : alook m k = some v := by
  induction m with
  | nil => simp at hmem
  | cons kv m ih =>
    obtain ⟨k', v'⟩ := kv
    rcases List.mem_cons.mp hmem with h | h
    · obtain ⟨rfl, rfl⟩ := Prod.mk.injEq .. ▸ h
      simp_all [alook]
    · have hk : k' ≠ k := by
        rintro rfl
        have : k' ∈ m.map Prod.fst := by
          exact List.mem_map.mpr ⟨(k', v), h, rfl⟩
        simp_all
      simp only [alook, if_neg hk]
      exact ih h (by simp_all)

theorem filterMap_if_eq_map_filter {α β : Type} (l : List α) (q : α → Prop)
    [DecidablePred q] (F : α → β) :
    (l.filterMap (fun g => if q g then some (F g) else none)) =
      (l.filter (fun g => decide (q g))).map F := by
  induction l with
  | nil => simp
  | cons a l ih =>
    by_cases h : q a <;> simp [List.filter_cons, h, ih]

/-! ## The Group Indexer searches a fixed list of reachable groups -/

theorem xnode_ind (P : XNode → Prop)
    (h : ∀ t x cs, (∀ c ∈ cs, P c) → P (XNode.node t x cs)) : ∀ n, P n := by
  have key : ∀ (N : Nat) (n : XNode), sizeOf n ≤ N → P n := by
    intro N
    induction N with
    | zero =>
      intro n hn
      cases n with
      | node t x cs => simp only [XNode.node.sizeOf_spec] at hn; omega
    | succ N ih =>
      intro n hn
      cases n with
      | node t x cs =>
        apply h
        intro c hc
        apply ih
        have := List.sizeOf_lt_of_mem hc
        simp only [XNode.node.sizeOf_spec] at hn
        omega
  intro n
  exact key (sizeOf n) n (le_refl _)

theorem findSome?_congr_mem {α β : Type} (l : List α) (f g : α → Option β)
    (h : ∀ x ∈ l, f x = g x) : l.findSome? f = l.findSome? g := by
  induction l with
  | nil => rfl
  | cons a l ih =>
    rw [List.findSome?_cons, List.findSome?_cons, h a (List.mem_cons_self _ _),
      ih (fun x hx => h x (List.mem_cons_of_mem _ hx))]

/-- The depth-first group search returns exactly the first group of the fixed
discovery-ordered list `reachGroups` whose key is not yet selected. -/
theorem find_next_eq_reach (n : XNode) : ∀ (sel : Selection) (p : PathKey),
    find_next_unselected_repeating_group n sel p =
      (reachGroups n p).find? (fun g => (alook sel g.1).isNone) := by
  induction n using xnode_ind with
  | h t x cs ih =>
    intro sel p
    rw [find_next_node, reachGroups_node, List.find?_append]
    cases hf : (compute_repeating_group_keys (XNode.node t x cs) p).find?
        (fun g => (alook sel g.1).isNone) with
    | some g =>
      have hmap : (((compute_repeating_group_keys (XNode.node t x cs) p).map
            (fun g => (g.1, g.2.2))).find? (fun g => (alook sel g.1).isNone)) =
          some (g.1, g.2.2) := by
        rw [List.find?_map]
        have hcomp : ((fun (g : PathKey × List XNode) => (alook sel g.1).isNone) ∘
            (fun (g : PathKey × String × List XNode) => (g.1, g.2.2))) =
            (fun (g : PathKey × String × List XNode) => (alook sel g.1).isNone) := rfl
        rw [hcomp, hf]
        rfl
      rw [hmap]
      rfl
    | none =>
      have hmap : (((compute_repeating_group_keys (XNode.node t x cs) p).map
            (fun g => (g.1, g.2.2))).find? (fun g => (alook sel g.1).isNone)) = none := by
        rw [List.find?_map]
        have hcomp : ((fun (g : PathKey × List XNode) => (alook sel g.1).isNone) ∘
            (fun (g : PathKey × String × List XNode) => (g.1, g.2.2))) =
            (fun (g : PathKey × String × List XNode) => (alook sel g.1).isNone) := rfl
        rw [hcomp, hf]
        rfl
      rw [hmap, Option.none_or, List.find?_flatMap]
      apply findSome?_congr_mem
      intro c hc
      by_cases hg : ((alook (get_children_by_tag (XNode.node t x cs)) c.tag).getD []).length = 1
      · simp only [hg, if_true, if_pos]
        exact ih c hc sel (p ++ [c.tag])
      · simp only [hg, if_false]
        rfl

/-- Every reachable group key strictly extends the path prefix, and the keys are
pairwise distinct (the group key identifies the group). -/
theorem reachGroups_keys (n : XNode) : ∀ (p : PathKey),
    (∀ g ∈ reachGroups n p, ∃ s, s ≠ [] ∧ g.1 = p ++ s) ∧
    ((reachGroups n p).map Prod.fst).Nodup := by
  induction n using xnode_ind with
  | h t x cs ih =>
    intro p
    rw [reachGroups_node]
    rw [compute_repeating_group_keys, filterMap_if_eq_map_filter]
    constructor
    · intro g hg
      rcases List.mem_append.mp hg with hg | hg
      · rcases List.mem_map.mp hg with ⟨g1, hg1, rfl⟩
        rcases List.mem_map.mp hg1 with ⟨g2, _, rfl⟩
        exact ⟨[g2.1], by simp, rfl⟩
      · rcases List.mem_flatMap.mp hg with ⟨c, hc, hgc⟩
        by_cases hguard :
            ((alook (get_children_by_tag (XNode.node t x cs)) c.tag).getD []).length = 1
        · rw [if_pos hguard] at hgc
          rcases ((ih c hc) (p ++ [c.tag])).1 g hgc with ⟨s, hs, hgs⟩
          exact ⟨[c.tag] ++ s, by simp, by rw [hgs, List.append_assoc]⟩
        · rw [if_neg hguard] at hgc
          simp at hgc
    · rw [List.map_append]
      apply List.Nodup.append
      · -- keys of the groups found directly at this node
        rw [List.map_map, List.map_map]
        apply List.Nodup.map_on
        · intro a ha b hb hab
          simp only [Function.comp_apply] at hab
          have h1 : a.1 = b.1 := by
            have h2 := List.append_cancel_left hab
            simpa using h2
          exact List.inj_on_of_nodup_map
            ((get_children_by_tag_keys_nodup (XNode.node t x cs)).sublist
              ((List.filter_sublist _).map Prod.fst)) ha hb h1
        · exact List.Nodup.of_map Prod.fst
            ((get_children_by_tag_keys_nodup (XNode.node t x cs)).sublist
              ((List.filter_sublist _).map Prod.fst))
      case dj =>
        -- node-level keys have length p.length + 1, child-branch keys at least p.length + 2
        intro k hk1 hk2
        simp only [List.map_map] at hk1
        rcases List.mem_map.mp hk1 with ⟨g0, _, rfl⟩
        rw [List.map_flatMap] at hk2
        rcases List.mem_flatMap.mp hk2 with ⟨c, hc, hkc⟩
        by_cases hguard :
            ((alook (get_children_by_tag (XNode.node t x cs)) c.tag).getD []).length = 1
        · simp only [hguard, if_true, if_pos] at hkc
          rcases List.mem_map.mp hkc with ⟨g, hgm, hgeq⟩
          rcases ((ih c hc) (p ++ [c.tag])).1 g hgm with ⟨s, hs, he⟩
          have hlen1 : ((Prod.fst ∘ (fun g => (g.1, g.2.2)) ∘
              (fun (g : String × List XNode) => (p ++ [g.1], g.1, g.2))) g0).length =
              p.length + 1 := by
            simp [Function.comp_apply]
          have hlen2 : g.1.length = p.length + 1 + s.length := by
            rw [he]
            simp
            omega
          have hslen : 1 ≤ s.length := by
            cases s with
            | nil => exact absurd rfl hs
            | cons a s => simp
          rw [hgeq] at hlen2
          omega
        · simp [hguard] at hkc
      case d₂ =>
        -- keys coming from singleton children
        rw [List.map_flatMap]
        rw [List.nodup_flatMap]
        constructor
        · intro c hc
          by_cases hguard :
              ((alook (get_children_by_tag (XNode.node t x cs)) c.tag).getD []).length = 1
          · simpa [hguard] using ((ih c hc) (p ++ [c.tag])).2
          · simp [hguard]
        · rw [List.pairwise_iff_forall_sublist]
          intro c1 c2 hsub
          have hc1 : c1 ∈ cs := hsub.subset (List.mem_cons_self _ _)
          have hc2 : c2 ∈ cs := hsub.subset (by simp)
          intro k hk1 hk2
          by_cases hg1 :
              ((alook (get_children_by_tag (XNode.node t x cs)) c1.tag).getD []).length = 1
          · by_cases hg2 :
                ((alook (get_children_by_tag (XNode.node t x cs)) c2.tag).getD []).length = 1
            · simp only [hg1, if_true, if_pos] at hk1
              simp only [hg2, if_true, if_pos] at hk2
              rcases List.mem_map.mp hk1 with ⟨g1, hgm1, rfl⟩
              rcases List.mem_map.mp hk2 with ⟨g2, hgm2, hkeq⟩
              rcases ((ih c1 hc1) (p ++ [c1.tag])).1 g1 hgm1 with ⟨s1, _, he1⟩
              rcases ((ih c2 hc2) (p ++ [c2.tag])).1 g2 hgm2 with ⟨s2, _, he2⟩
              have heq2 : (p ++ [c1.tag]) ++ s1 = (p ++ [c2.tag]) ++ s2 := by
                rw [← he1, ← he2, hkeq]
              rw [List.append_assoc, List.append_assoc] at heq2
              have htag : c1.tag = c2.tag := by
                have h3 := List.append_cancel_left heq2
                simp only [List.singleton_append, List.cons.injEq] at h3
                exact h3.1
              -- two distinct children with the same singleton tag: contradiction
              have hfsub : List.Sublist ([c1, c2].filter (fun c => decide (c.tag = c1.tag)))
                  (cs.filter (fun c => decide (c.tag = c1.tag))) := hsub.filter _
              have hfeq : [c1, c2].filter (fun c => decide (c.tag = c1.tag)) = [c1, c2] := by
                simp [List.filter_cons, htag.symm]
              rw [hfeq] at hfsub
              have hlen : 2 ≤ (cs.filter (fun c => decide (c.tag = c1.tag))).length := by
                have := hfsub.length_le
                simpa using this
              rw [get_children_by_tag_alook] at hg1
              simp only [XNode.children] at hg1
              omega
            · simp [hg2] at hk2
          · simp [hg1] at hk1

/-! ## The worklist loop: termination, adequacy and its Cartesian output -/

theorem unselList_empty (e : XNode) : unselList e [] = reachGroups e [e.tag] := by
  unfold unselList
  apply List.filter_eq_self.mpr
  intro g _
  simp [alook]

/-- Under a given partial selection, the group search returns the head of the
still-unselected suffix of the discovery list. -/
theorem find_next_head (e : XNode) (sel : Selection) :
    find_next_unselected_repeating_group e sel [e.tag] = (unselList e sel).head? := by
  rw [find_next_eq_reach, unselList]
  exact (List.filter_head? _ _).symm

/-- Selecting the first unselected group removes exactly it from the unselected
list: the strict-growth / termination argument of the worklist loop. -/
theorem unselList_insert (e : XNode) (sel : Selection) (k : PathKey) (cs : List XNode)
    (tl : List (PathKey × List XNode)) (i : Nat)
    (h : unselList e sel = (k, cs) :: tl) :
    unselList e (selInsert sel k i) = tl := by
  have hnd : (((k, cs) :: tl).map Prod.fst).Nodup := by
    have hsub : List.Sublist ((k, cs) :: tl) (reachGroups e [e.tag]) := by
      rw [← h]
      exact List.filter_sublist _
    exact ((reachGroups_keys e [e.tag]).2).sublist (hsub.map Prod.fst)
  have hknotin : ∀ g ∈ tl, ¬ (k = g.1) := by
    intro g hg hkg
    have hmem : k ∈ tl.map Prod.fst := List.mem_map.mpr ⟨g, hg, hkg.symm⟩
    simp only [List.map_cons, List.nodup_cons] at hnd
    exact hnd.1 hmem
  have hpt : ∀ g ∈ reachGroups e [e.tag],
      ((alook (selInsert sel k i) g.1).isNone : Bool) =
        ((!(decide (k = g.1))) && (alook sel g.1).isNone) := by
    intro g _
    by_cases hkg : k = g.1
    · simp [selInsert, alook, hkg]
    · simp [selInsert, alook, hkg]
  unfold unselList at h ⊢
  rw [List.filter_congr hpt, ← List.filter_filter, h, List.filter_cons]
  have hhead : (!(decide (k = ((k, cs) : PathKey × List XNode).1))) = false := by simp
  rw [hhead]
  simp only [Bool.false_eq_true, if_false]
  apply List.filter_eq_self.mpr
  intro g hg
  simp [hknotin g hg]

/-- Adequacy and functional characterization of the worklist loop: with the fuel
`cartCount` of the still-unselected group list, processing one stacked selection
finalizes exactly its LIFO Cartesian expansion, in order. -/
theorem expandLoop_adequate (e : XNode) : ∀ (N : Nat) (sel : Selection),
    (unselList e sel).length ≤ N → ∀ (pending finalized : List Selection) (fuel : Nat),
    expandLoop e (cartCount (unselList e sel) + fuel) (sel :: pending) finalized =
      expandLoop e fuel pending (finalized ++ cartExpand (unselList e sel) sel) := by
  intro N
  induction N with
  | zero =>
    intro sel hlen pending finalized fuel
    have h0 : unselList e sel = [] := List.length_eq_zero.mp (Nat.le_zero.mp hlen)
    have hfind : find_next_unselected_repeating_group e sel [e.tag] = none := by
      rw [find_next_head, h0]
      rfl
    rw [h0]
    show expandLoop e (1 + fuel) (sel :: pending) finalized = _
    rw [(show 1 + fuel = fuel + 1 by omega)]
    simp [expandLoop, hfind, cartExpand]
  | succ N ih =>
    intro sel hlen pending finalized fuel
    cases hU : unselList e sel with
    | nil =>
      have hfind : find_next_unselected_repeating_group e sel [e.tag] = none := by
        rw [find_next_head, hU]
        rfl
      show expandLoop e (1 + fuel) (sel :: pending) finalized = _
      rw [(show 1 + fuel = fuel + 1 by omega)]
      simp [expandLoop, hfind, cartExpand]
    | cons g tl =>
      obtain ⟨k, cs⟩ := g
      have hfind : find_next_unselected_repeating_group e sel [e.tag] = some (k, cs) := by
        rw [find_next_head, hU]
        rfl
      have hlentl : tl.length ≤ N := by
        rw [hU] at hlen
        simpa using Nat.le_of_succ_le_succ (by simpa using hlen)
      show expandLoop e (1 + cs.length * cartCount tl + fuel) (sel :: pending) finalized = _
      rw [(show 1 + cs.length * cartCount tl + fuel
            = (cs.length * cartCount tl + fuel) + 1 by omega)]
      simp only [expandLoop, hfind]
      have hlist : ∀ (idxs : List Nat) (pending finalized : List Selection) (fuel : Nat),
          expandLoop e (idxs.length * cartCount tl + fuel)
            ((idxs.map (fun idx => selInsert sel k idx)) ++ pending) finalized =
          expandLoop e fuel pending
            (finalized ++ idxs.flatMap (fun i => cartExpand tl (selInsert sel k i))) := by
        intro idxs
        induction idxs with
        | nil =>
          intro pending finalized fuel
          simp
        | cons i idxs ihl =>
          intro pending finalized fuel
          have htl : unselList e (selInsert sel k i) = tl :=
            unselList_insert e sel k cs tl i hU
          have harith : (i :: idxs).length * cartCount tl + fuel
              = cartCount tl + (idxs.length * cartCount tl + fuel) := by
            simp [Nat.succ_mul]
            omega
          rw [harith]
          have happ := ih (selInsert sel k i) (by rw [htl]; exact hlentl)
            ((idxs.map (fun idx => selInsert sel k idx)) ++ pending) finalized
            (idxs.length * cartCount tl + fuel)
          rw [htl] at happ
          simp only [List.map_cons, List.cons_append]
          rw [happ, ihl]
          simp [List.append_assoc]
      have hmain := hlist ((List.range cs.length).reverse) pending finalized fuel
      rw [List.length_reverse, List.length_range] at hmain
      rw [(show ((List.range cs.length).reverse.map (fun idx => selInsert sel k idx))
            = ((List.range cs.length).map (fun idx => selInsert sel k idx)).reverse by
          rw [List.map_reverse])] at hmain
      rw [hmain]
      rfl

/-- The fuel chosen in `expandSelections` always suffices, and the worklist loop
computes the LIFO Cartesian expansion of the reachable-group list. -/
theorem expandSelections_spec (e : XNode) :
    expandLoop e (cartCount (reachGroups e [e.tag])) [[]] [] =
      some (cartExpand (reachGroups e [e.tag]) []) ∧
    expandSelections e = cartExpand (reachGroups e [e.tag]) [] := by
  have h := expandLoop_adequate e (unselList e []).length [] (le_refl _) [] [] 0
  rw [unselList_empty] at h
  rw [Nat.add_zero] at h
  have hfin : expandLoop e 0 [] ([] ++ cartExpand (reachGroups e [e.tag]) [])
      = some (cartExpand (reachGroups e [e.tag]) []) := by
    simp [expandLoop]
  constructor
  · rw [h, hfin]
  · unfold expandSelections
    rw [h, hfin]
    rfl

/-! ## Counting rows -/

theorem cartExpand_length (gs : List (PathKey × List XNode)) : ∀ (sel : Selection),
    (cartExpand gs sel).length = (gs.map (fun g => g.2.length)).prod := by
  induction gs with
  | nil =>
    intro sel
    simp [cartExpand]
  | cons g gs ih =>
    intro sel
    simp only [cartExpand, List.map_cons, List.prod_cons]
    have hflat : ∀ (idxs : List Nat),
        ((idxs.flatMap (fun i => cartExpand gs (selInsert sel g.1 i))).length)
          = idxs.length * (gs.map (fun g => g.2.length)).prod := by
      intro idxs
      induction idxs with
      | nil => simp
      | cons i idxs ihi =>
        simp only [List.flatMap_cons, List.length_append, ihi, ih, List.length_cons]
        ring
    rw [hflat]
    simp [Nat.mul_comm]

theorem rowsFromSels_length (e : XNode) (rpTag : Option String) (rt : String)
    (cvs : List (String × String)) : ∀ (sels : List Selection) (h : HState),
    ((rowsFromSels e rpTag rt cvs sels h).1).length = sels.length := by
  intro sels
  induction sels with
  | nil => intro h; rfl
  | cons sel sels ih =>
    intro h
    simp [rowsFromSels, ih]

/-- The row count of one row element: one row per finalized selection, which is
the product of the sizes of the reachable nested repeating groups. -/
theorem extract_rows_length (e : XNode) (rp : Option XNode) (rt : String) (h : HState) :
    ((extract_rows_for_element e rp rt h).1).length
      = ((reachGroups e [e.tag]).map (fun g => g.2.length)).prod := by
  unfold extract_rows_for_element
  rw [rowsFromSels_length, (expandSelections_spec e).2, cartExpand_length]

theorem extractElems_length (rp : Option XNode) (rt : String) :
    ∀ (els : List XNode) (h h' : HState),
    ((extractElems rp rt els h).1).length = ((extractElems rp rt els h').1).length := by
  intro els
  induction els with
  | nil => intro h h'; rfl
  | cons e els ih =>
    intro h h'
    simp only [extractElems, List.length_append]
    rw [extract_rows_length, extract_rows_length, ih]

/-! ## The row map: container values first, subtree values second -/

theorem subtree_fold_fst (rpTag : Option String) (rt : String) :
    ∀ (pts : List (PathKey × String)) (h : HState) (m m' : List (String × String)),
    (pts.foldl (subtreeStep rpTag rt) (h, m)).1 = (pts.foldl (subtreeStep rpTag rt) (h, m')).1 := by
  intro pts
  induction pts with
  | nil => intro h m m'; rfl
  | cons pt pts ih =>
    intro h m m'
    simp only [List.foldl_cons, subtreeStep]
    cases subtreeNaming rpTag rt h pt with
    | none => exact ih h m m'
    | some r =>
      obtain ⟨col, eff, text⟩ := r
      exact ih _ _ _

theorem subtree_fold_snd (rpTag : Option String) (rt : String) :
    ∀ (pts : List (PathKey × String)) (h : HState) (m : List (String × String)),
    (pts.foldl (subtreeStep rpTag rt) (h, m)).2 =
      (subtreeWrites rpTag rt h pts).foldl (fun mm cv => odSet mm cv.1 cv.2) m := by
  intro pts
  induction pts with
  | nil => intro h m; rfl
  | cons pt pts ih =>
    intro h m
    simp only [List.foldl_cons, subtreeStep, subtreeWrites]
    cases subtreeNaming rpTag rt h pt with
    | none => exact ih h m
    | some r =>
      obtain ⟨col, eff, text⟩ := r
      simp only [List.foldl_cons]
      exact ih _ _

theorem alook_foldl_odSet : ∀ (ws : List (String × String)) (m : List (String × String))
    (c : String),
    alook (ws.foldl (fun mm cv => odSet mm cv.1 cv.2) m) c = (alook ws.reverse c).or (alook m c) := by
  intro ws
  induction ws with
  | nil =>
    intro m c
    simp [alook]
  | cons w ws ih =>
    intro m c
    simp only [List.foldl_cons, List.reverse_cons]
    rw [ih, alook_append, alook_odSet]
    cases halook : alook ws.reverse c with
    | some v => simp [Option.or]
    | none =>
      by_cases hw : w.1 = c
      · simp [alook, hw, Option.or]
      · simp [alook, hw, Option.or]

/-! ## BFS finds nothing when no node repeats -/

theorem sizeOf_list_append (l1 l2 : List XNode) :
    sizeOf (l1 ++ l2) + 1 = sizeOf l1 + sizeOf l2 := by
  induction l1 with
  | nil => simp; omega
  | cons a l ih => simp only [List.cons_append, List.cons.sizeOf_spec]; omega

theorem bfs_none_of_allSingle : ∀ (N : Nat) (q : List XNode), sizeOf q ≤ N →
    (∀ n ∈ q, allSingle n = true) → bfsRowSearch q = none := by
  intro N
  induction N with
  | zero =>
    intro q hq hall
    cases q with
    | nil => simp at hq
    | cons n q => simp at hq
  | succ N ih =>
    intro q hq hall
    cases q with
    | nil => rw [bfsRowSearch]
    | cons n q =>
      have hs := hall n (List.mem_cons_self _ _)
      cases hn : n with
      | node t x cs =>
        rw [hn] at hs
        rw [allSingle_node] at hs
        simp only [Bool.and_eq_true] at hs
        have hfirst : first_repeating_child_tag (XNode.node t x cs) = none :=
          Option.isNone_iff_eq_none.mp hs.1
        rw [bfsRowSearch, hfirst]
        apply ih
        · have happ := sizeOf_list_append q cs
          rw [hn] at hq
          simp only [List.cons.sizeOf_spec, XNode.node.sizeOf_spec] at hq
          simp only [XNode.children]
          omega
        · intro m hm
          rcases List.mem_append.mp hm with hm | hm
          · exact hall m (List.mem_cons_of_mem _ hm)
          · simp only [XNode.children] at hm
            exact (List.all_eq_true.mp hs.2) m hm

/-! ## Claim theorems -/

/-- Claim C1: for every row element, the row extraction produces a number of output
rows equal to the product of the sizes of all nested repeating groups reachable
from it (through singleton-only paths, as the Group Indexer defines reachability),
and exactly 1 row when it has no nested repeating groups (empty product); in
particular a row element with two independent nested groups of sizes 2 and 3
yields 6 rows. -/
theorem c1_row_count_is_group_product :
    (∀ (e : XNode) (rp : Option XNode) (rt : String) (h : HState),
      ((extract_rows_for_element e rp rt h).1).length
        = ((reachGroups e [e.tag]).map (fun g => g.2.length)).prod) ∧
    ((extract_rows_for_element
        (XNode.node "b" "" [XNode.node "c" "1" [], XNode.node "c" "2" [],
          XNode.node "d" "3" [], XNode.node "d" "4" [], XNode.node "d" "5" []])
        none "b" ⟨[], []⟩).1).length = 6 := by
  constructor
  · exact extract_rows_length
  · rw [extract_rows_length]
    simp [reachGroups_node, compute_repeating_group_keys, get_children_by_tag,
      addToGroups, XNode.children, XNode.tag, alook]

/-- Claim C4: in a document where no node has two or more direct children sharing
a tag, the Row Locator returns rowParent = none, rowTag = the root's tag, and the
root itself as the only row element. -/
theorem c4_no_repeats_single_row (root : XNode) (h : allSingle root = true) :
    find_row_parent_and_tag root = (none, root.tag, [root]) := by
  unfold find_row_parent_and_tag
  have hbfs : bfsRowSearch [root] = none := by
    apply bfs_none_of_allSingle (sizeOf [root]) [root] (le_refl _)
    intro n hn
    rw [List.mem_singleton.mp hn]
    exact h
  rw [hbfs]

/-- Witness for C4 at a concrete two-level document with no repeating tags. -/
theorem c4_no_repeats_single_row_witness :
    allSingle (XNode.node "a" "" [XNode.node "f" "1" []]) = true ∧
    find_row_parent_and_tag (XNode.node "a" "" [XNode.node "f" "1" []]) =
      (none, "a", [XNode.node "a" "" [XNode.node "f" "1" []]]) := by
  have hall : allSingle (XNode.node "a" "" [XNode.node "f" "1" []]) = true := by
    simp [allSingle_node, first_repeating_child_tag, get_children_by_tag, addToGroups,
      XNode.children, XNode.tag]
  exact ⟨hall, c4_no_repeats_single_row _ hall⟩

/-- Claim C7: the Selection Expander's worklist loop terminates on every finite
tree (the chosen fuel suffices, so the totalized loop returns a result); each
expansion step inserts a key that is not yet in the partial selection, strictly
growing it; and a row element with zero nested repeating groups finalizes exactly
one selection, the empty one. -/
theorem c7_expander_termination (e : XNode) :
    (expandLoop e (cartCount (reachGroups e [e.tag])) [[]] []).isSome = true ∧
    (∀ (sel : Selection) (k : PathKey) (cs : List XNode),
      find_next_unselected_repeating_group e sel [e.tag] = some (k, cs) →
      alook sel k = none ∧ ∀ i : Nat, (selInsert sel k i).length = sel.length + 1) ∧
    (find_next_unselected_repeating_group e [] [e.tag] = none →
      expandSelections e = [[]]) := by
  refine ⟨?_, ?_, ?_⟩
  · rw [(expandSelections_spec e).1]
    rfl
  · intro sel k cs hfind
    rw [find_next_eq_reach] at hfind
    have hpred := List.find?_some hfind
    constructor
    · simpa using hpred
    · intro i
      rfl
  · intro hnone
    rw [find_next_head] at hnone
    have hU : unselList e [] = [] := by
      cases hu : unselList e [] with
      | nil => rfl
      | cons a l => rw [hu] at hnone; simp at hnone
    rw [unselList_empty] at hU
    rw [(expandSelections_spec e).2, hU]
    rfl

/-- Witness for C7 at a concrete row element with one singleton child and no
nested repeating groups. -/
theorem c7_expander_termination_witness :
    expandSelections (XNode.node "b" "" [XNode.node "c" "1" []]) = [[]] := by
  apply (c7_expander_termination (XNode.node "b" "" [XNode.node "c" "1" []])).2.2
  simp [find_next_node, compute_repeating_group_keys, get_children_by_tag, addToGroups,
    XNode.children, XNode.tag, alook]

/-- Claim C9: running the extraction on the same document against two fresh,
independent header states yields identical header order and identical rows.  In
the embedding the whole pipeline is a pure function of the document and the
initial header state (the Python code is single-threaded, reads no ambient
state, and iterates dicts in insertion order), so both runs coincide. -/
theorem c9_two_fresh_runs_agree (root : XNode) :
    ((extract_table root ⟨[], []⟩).2.order = (extract_table root ⟨[], []⟩).2.order) ∧
    ((extract_table root ⟨[], []⟩).1 = (extract_table root ⟨[], []⟩).1) :=
  ⟨rfl, rfl⟩

/-- Claim C10 (implicit): for a row element with exactly one nested repeating
group of size n ≥ 2, the n finalized selections — and hence the n produced rows,
one per selection in order — come out in reverse child order (index n-1 first,
index 0 last), because the worklist is a Python list consumed last-in-first-out. -/
theorem c10_single_group_reverse_order (e : XNode) (rp : Option XNode) (rt : String)
    (h : HState) (k : PathKey) (cs : List XNode) (n : Nat)
    (hfind : find_next_unselected_repeating_group e [] [e.tag] = some (k, cs))
    (hn : cs.length = n) (h2 : 2 ≤ n)
    (honly : ∀ i, i < n →
      find_next_unselected_repeating_group e [(k, i)] [e.tag] = none) :
    expandSelections e = (List.range n).reverse.map (fun i => [(k, i)]) ∧
    (extract_rows_for_element e rp rt h).1 =
      (rowsFromSels e (rp.map XNode.tag) rt (build_container_values rp rt)
        ((List.range n).reverse.map (fun i => [(k, i)])) h).1 := by
  have hhead : (reachGroups e [e.tag]).head? = some (k, cs) := by
    rw [← unselList_empty, ← find_next_head]
    exact hfind
  cases hR : reachGroups e [e.tag] with
  | nil => rw [hR] at hhead; simp at hhead
  | cons g R' =>
    rw [hR] at hhead
    simp only [List.head?_cons, Option.some.injEq] at hhead
    subst hhead
    have hzero : find_next_unselected_repeating_group e [(k, 0)] [e.tag] = none :=
      honly 0 (by omega)
    rw [find_next_head] at hzero
    have hUnil : unselList e [(k, 0)] = [] := by
      cases hu : unselList e [(k, 0)] with
      | nil => rfl
      | cons a l => rw [hu] at hzero; simp at hzero
    have hR'nil : R' = [] := by
      by_contra hne
      obtain ⟨g2, R2, rfl⟩ := List.exists_cons_of_ne_nil hne
      have hnd := (reachGroups_keys e [e.tag]).2
      rw [hR] at hnd
      simp only [List.map_cons, List.nodup_cons, List.mem_cons] at hnd
      have hg2k : ¬ k = g2.1 := by
        intro hh
        exact hnd.1 (Or.inl hh)
      have hg2mem : g2 ∈ unselList e [(k, 0)] := by
        unfold unselList
        rw [hR]
        apply List.mem_filter.mpr
        refine ⟨by simp, ?_⟩
        simp [alook, hg2k]
      rw [hUnil] at hg2mem
      simp at hg2mem
    subst hR'nil
    have hfm : ∀ (l : List Nat), l.flatMap (fun i => [[((k : PathKey), i)]])
        = l.map (fun i => [(k, i)]) := by
      intro l
      induction l with
      | nil => rfl
      | cons a l ih => simp [List.flatMap_cons, ih]
    have hexp : expandSelections e = (List.range n).reverse.map (fun i => [(k, i)]) := by
      rw [(expandSelections_spec e).2, hR]
      simp only [cartExpand, selInsert, hn]
      exact hfm _
    refine ⟨hexp, ?_⟩
    unfold extract_rows_for_element
    rw [hexp]

/-- Witness for C10 at a row element with one nested repeating group of size 2:
the two selections come out with index 1 first, index 0 last. -/
theorem c10_single_group_reverse_order_witness :
    expandSelections (XNode.node "b" "" [XNode.node "c" "1" [], XNode.node "c" "2" []])
      = [[(["b", "c"], 1)], [(["b", "c"], 0)]] := by
  have hc10 := c10_single_group_reverse_order
    (XNode.node "b" "" [XNode.node "c" "1" [], XNode.node "c" "2" []])
    none "b" ⟨[], []⟩ ["b", "c"] [XNode.node "c" "1" [], XNode.node "c" "2" []] 2
    (by simp [find_next_node, compute_repeating_group_keys, get_children_by_tag,
        addToGroups, XNode.children, XNode.tag, alook])
    rfl (by omega)
    (by
      intro i hi
      have h01 : i = 0 ∨ i = 1 := by omega
      rcases h01 with rfl | rfl <;>
        simp [find_next_node, compute_repeating_group_keys, get_children_by_tag,
          addToGroups, XNode.children, XNode.tag, alook])
  rw [hc10.1]
  rfl

/-- Counterexample for C5: a document whose two row elements contain only an
empty-text leaf `e`.  The claim allows the first such empty leaf to register a
header entry; the code never does: both produced rows are empty and the header
state stays completely empty, although the empty leaf `e` was the first (and
only) leaf that could have named column `e`. -/
theorem c5_counterexample :
    iter_scalar_leaves (XNode.node "b" "" [XNode.node "e" "" []]) [] ["b"]
      = [(["b", "e"], "")] ∧
    extract_table
      (XNode.node "a" "" [XNode.node "b" "" [XNode.node "e" "" []],
        XNode.node "b" "" [XNode.node "e" "" []]]) ⟨[], []⟩
      = ([[], []], ⟨[], []⟩) := by
  constructor
  · simp [iter_scalar_leaves_node, get_children_by_tag, addToGroups, XNode.children,
      XNode.tag, alook, (by decide : pytrim "" = "")]
  · simp [extract_table, find_row_parent_and_tag, bfsRowSearch, first_repeating_child_tag,
      get_children_by_tag, addToGroups, XNode.children, XNode.tag, XNode.text, alook,
      extractElems, extract_rows_for_element, build_container_values,
      iter_scalar_leaves_node, containerCollect, odSet, expandSelections, expandLoop,
      reachGroups_node, compute_repeating_group_keys, cartCount, find_next_node,
      rowsFromSels, buildRow, containerStep, subtreeStep, subtreeNaming, registerCol,
      disambiguate_column_name, disambiguateFrom, selInsert,
      (by decide : pytrim "" = "")]

/-- Claim C5, amended: a node with zero children is a leaf and emits its trimmed
text; when the trimmed text is empty the leaf is suppressed entirely — it
contributes neither a row value nor a header entry (the row-subtree loop and the
container collection both skip it before any header registration). -/
theorem c5_empty_leaf_suppressed :
    (∀ (n : XNode) (sel : Selection) (path : PathKey), n.children = [] →
      iter_scalar_leaves n sel path = [(path, pytrim n.text)]) ∧
    (∀ (rpTag : Option String) (rt : String) (st : HState × List (String × String))
      (path : PathKey), subtreeStep rpTag rt st (path, "") = st) ∧
    (∀ (rpt rt : String) (vals : List (String × String)) (path : PathKey),
      containerCollect rpt rt vals (path, "") = vals) := by
  refine ⟨?_, ?_, ?_⟩
  · intro n sel path hleaf
    cases n with
    | node t x cs =>
      simp only [XNode.children] at hleaf
      subst hleaf
      rw [iter_scalar_leaves_node]
      rfl
  · intro rpTag rt st path
    cases rpTag <;> simp [subtreeStep, subtreeNaming]
  · intro rpt rt vals path
    unfold containerCollect
    by_cases hskip : 2 ≤ path.length ∧ path.head? = some rpt ∧ path[1]? = some rt
    · simp [hskip]
    · simp [hskip]

/-- Witness for C5 (amended) at a concrete empty leaf. -/
theorem c5_empty_leaf_suppressed_witness :
    iter_scalar_leaves (XNode.node "e" "" []) [] ["e"] = [(["e"], pytrim "")] ∧
    subtreeStep (some "a") "b" (⟨[], []⟩, []) (["b", "e"], "") = (⟨[], []⟩, []) ∧
    containerCollect "a" "b" [] (["a", "e"], "") = [] := by
  refine ⟨?_, ?_, ?_⟩
  · exact c5_empty_leaf_suppressed.1 (XNode.node "e" "" []) [] ["e"] rfl
  · exact c5_empty_leaf_suppressed.2.1 (some "a") "b" (⟨[], []⟩, []) ["b", "e"]
  · exact c5_empty_leaf_suppressed.2.2 "a" "b" [] ["a", "e"]

/-- Claim C6: a row record is built by merging container values first and
row-subtree values second; the subtree loop writes unconditionally while the
container loop only fills absent keys, so whenever the subtree pass writes a
column at all, the final record carries the (last) subtree value for it, not the
container value. -/
theorem c6_subtree_values_win (e : XNode) (rpTag : Option String) (rt : String)
    (cvs : List (String × String)) (h : HState) (sel : Selection) (col : String)
    (hws : (alook ((subtreeWrites rpTag rt ((cvs.foldl (containerStep rpTag) (h, [])).1)
        (iter_scalar_leaves e sel [e.tag])).reverse) col).isSome = true) :
    alook (buildRow e rpTag rt cvs h sel).2 col =
      alook ((subtreeWrites rpTag rt ((cvs.foldl (containerStep rpTag) (h, [])).1)
        (iter_scalar_leaves e sel [e.tag])).reverse) col := by
  unfold buildRow
  rw [subtree_fold_snd, alook_foldl_odSet]
  obtain ⟨v, hv⟩ := Option.isSome_iff_exists.mp hws
  rw [hv]
  rfl

/-- Witness for C6: the container supplies `y = "C"`, the row subtree writes
`y = "R1"` to the same column, and the final record holds `"R1"`. -/
theorem c6_subtree_values_win_witness :
    alook [("y", "C")] "y" = some "C" ∧
    alook (buildRow (XNode.node "b" "" [XNode.node "y" "R1" []]) (some "b") "b"
      [("y", "C")] ⟨[], []⟩ []).2 "y" = some "R1" := by
  refine ⟨by decide, ?_⟩
  have hc6 := c6_subtree_values_win (XNode.node "b" "" [XNode.node "y" "R1" []])
    (some "b") "b" [("y", "C")] ⟨[], []⟩ [] "y"
    (by
      simp [subtreeWrites, subtreeNaming, iter_scalar_leaves_node, get_children_by_tag,
        addToGroups, XNode.children, XNode.tag, alook, containerStep, registerCol,
        disambiguate_column_name, (by decide : pytrim "R1" = "R1")])
  rw [hc6]
  simp [subtreeWrites, subtreeNaming, iter_scalar_leaves_node, get_children_by_tag,
    addToGroups, XNode.children, XNode.tag, alook, containerStep, registerCol,
    disambiguate_column_name, (by decide : pytrim "R1" = "R1")]

/-- Claim C2 is violated by the code (code bug): container collection keys values
by the leaf tag alone, so the two distinct leaf PathKeys `a.y` and `a.x.y` are
both bound to the single column `y`, and the value `"1"` of the first is
silently overwritten by the value `"2"` of the second instead of the second
receiving a different name.  This theorem evaluates the code at the failing
input: the leaf iterator emits both distinct PathKeys, and
`build_container_values` collapses them into one column with the last value. -/
theorem c2_container_collision_bug :
    iter_scalar_leaves
        (XNode.node "a" "" [XNode.node "y" "1" [],
          XNode.node "x" "" [XNode.node "y" "2" []],
          XNode.node "b" "" [XNode.node "f" "p" []],
          XNode.node "b" "" [XNode.node "f" "q" []]]) [] ["a"]
      = [(["a", "y"], "1"), (["a", "x", "y"], "2")] ∧
    build_container_values
        (some (XNode.node "a" "" [XNode.node "y" "1" [],
          XNode.node "x" "" [XNode.node "y" "2" []],
          XNode.node "b" "" [XNode.node "f" "p" []],
          XNode.node "b" "" [XNode.node "f" "q" []]])) "b"
      = [("y", "2")] := by
  constructor
  · simp [iter_scalar_leaves_node, get_children_by_tag, addToGroups, XNode.children,
      XNode.tag, alook, (by decide : pytrim "1" = "1"), (by decide : pytrim "2" = "2")]
  · simp [build_container_values, iter_scalar_leaves_node, get_children_by_tag,
      addToGroups, XNode.children, XNode.tag, XNode.text, alook, containerCollect,
      odSet, (by decide : pytrim "1" = "1"), (by decide : pytrim "2" = "2")]

/-- Claim C3 is violated by the code (code bug): on the second row element the
value destined for PathKey `b.name` — to which column `b.name` is already bound —
is given the fresh suffixed column `b.name_2` instead of reusing `b.name`,
because `disambiguate_column_name` never checks whether the dotted candidate is
bound to the same PathKey.  This theorem evaluates the code at the failing
input: two columns `b.name` and `b.name_2` end up bound to the one PathKey
`["b", "name"]` and the two rows scatter the same field over two columns. -/
theorem c3_no_reuse_bug :
    extract_table
        (XNode.node "a" "" [XNode.node "name" "X" [],
          XNode.node "b" "" [XNode.node "name" "1" []],
          XNode.node "b" "" [XNode.node "name" "2" []]]) ⟨[], []⟩
      = ([[("name", "X"), ("b.name", "1")], [("name", "X"), ("b.name_2", "2")]],
         ⟨["name", "b.name", "b.name_2"],
          [("name", ["a", "name"]), ("b.name", ["b", "name"]),
           ("b.name_2", ["b", "name"])]⟩) := by
  simp [extract_table, find_row_parent_and_tag, bfsRowSearch, first_repeating_child_tag,
    get_children_by_tag, addToGroups, XNode.children, XNode.tag, XNode.text,
    alook, extractElems, extract_rows_for_element, build_container_values,
    iter_scalar_leaves_node, containerCollect, odSet, expandSelections, expandLoop,
    reachGroups_node, compute_repeating_group_keys, cartCount, find_next_node,
    rowsFromSels, buildRow, containerStep, subtreeStep, subtreeNaming, registerCol,
    disambiguate_column_name, disambiguateFrom, selInsert,
    (by decide : pytrim "X" = "X"), (by decide : pytrim "1" = "1"),
    (by decide : pytrim "2" = "2"),
    (by decide : String.intercalate "." ["b", "name"] = "b.name"),
    (by decide : toString (2:Nat) = "2"), (by decide : toString (3:Nat) = "3"),
    (by decide : toString (4:Nat) = "4")]
  decide

/-- Counterexample for C8: merging the same two documents in the two orders
changes not only the column order but the very set of column names (`x.b` and
`x.b_2` exist in one run only, `b_2` and `b_3` in the other), and the rows of
the same source document carry their values under different column names.  The
claim's "same set of columns and identical per-column values" is false. -/
theorem c8_counterexample :
    extract_tables
        [XNode.node "a" "" [XNode.node "b" "1" [], XNode.node "b" "2" []],
         XNode.node "c" "" [XNode.node "x" "" [XNode.node "b" "9" []],
           XNode.node "x" "" [XNode.node "b" "8" []]]] ⟨[], []⟩
      = ([[("b", "1")], [("b", "2")], [("x.b", "9")], [("x.b_2", "8")]],
         ⟨["b", "x.b", "x.b_2"],
          [("b", ["b"]), ("x.b", ["x", "b"]), ("x.b_2", ["x", "b"])]⟩) ∧
    extract_tables
        [XNode.node "c" "" [XNode.node "x" "" [XNode.node "b" "9" []],
           XNode.node "x" "" [XNode.node "b" "8" []]],
         XNode.node "a" "" [XNode.node "b" "1" [], XNode.node "b" "2" []]] ⟨[], []⟩
      = ([[("b", "9")], [("b", "8")], [("b_2", "1")], [("b_3", "2")]],
         ⟨["b", "b_2", "b_3"],
          [("b", ["x", "b"]), ("b_2", ["b"]), ("b_3", ["b"])]⟩) ∧
    ¬ (["b", "x.b", "x.b_2"] : List String) = ["b", "b_2", "b_3"] ∧
    ¬ ("x.b" ∈ (["b", "b_2", "b_3"] : List String)) := by
  have hA1 : extract_table
      (XNode.node "a" "" [XNode.node "b" "1" [], XNode.node "b" "2" []]) ⟨[], []⟩
      = ([[("b", "1")], [("b", "2")]], ⟨["b"], [("b", ["b"])]⟩) := by
    simp [extract_table, find_row_parent_and_tag, bfsRowSearch,
      first_repeating_child_tag, get_children_by_tag, addToGroups, XNode.children,
      XNode.tag, XNode.text, alook, extractElems, extract_rows_for_element,
      build_container_values, iter_scalar_leaves_node, containerCollect, odSet,
      expandSelections, expandLoop, reachGroups_node, compute_repeating_group_keys,
      cartCount, find_next_node, rowsFromSels, buildRow, containerStep, subtreeStep,
      subtreeNaming, registerCol, disambiguate_column_name, disambiguateFrom, selInsert,
      (by decide : pytrim "1" = "1"), (by decide : pytrim "2" = "2"),
      (by decide : pytrim "9" = "9"), (by decide : pytrim "8" = "8"),
      (by decide : String.intercalate "." ["x", "b"] = "x.b"),
      (by decide : String.intercalate "." ["b"] = "b"),
      (by decide : toString (2:Nat) = "2"), (by decide : toString (3:Nat) = "3"),
      (by decide : toString (4:Nat) = "4")]
  have hB1 : extract_table
      (XNode.node "c" "" [XNode.node "x" "" [XNode.node "b" "9" []],
        XNode.node "x" "" [XNode.node "b" "8" []]]) ⟨["b"], [("b", ["b"])]⟩
      = ([[("x.b", "9")], [("x.b_2", "8")]],
         ⟨["b", "x.b", "x.b_2"],
          [("b", ["b"]), ("x.b", ["x", "b"]), ("x.b_2", ["x", "b"])]⟩) := by
    simp [extract_table, find_row_parent_and_tag, bfsRowSearch,
      first_repeating_child_tag, get_children_by_tag, addToGroups, XNode.children,
      XNode.tag, XNode.text, alook, extractElems, extract_rows_for_element,
      build_container_values, iter_scalar_leaves_node, containerCollect, odSet,
      expandSelections, expandLoop, reachGroups_node, compute_repeating_group_keys,
      cartCount, find_next_node, rowsFromSels, buildRow, containerStep, subtreeStep,
      subtreeNaming, registerCol, disambiguate_column_name, disambiguateFrom, selInsert,
      (by decide : pytrim "1" = "1"), (by decide : pytrim "2" = "2"),
      (by decide : pytrim "9" = "9"), (by decide : pytrim "8" = "8"),
      (by decide : String.intercalate "." ["x", "b"] = "x.b"),
      (by decide : String.intercalate "." ["b"] = "b"),
      (by decide : toString (2:Nat) = "2"), (by decide : toString (3:Nat) = "3"),
      (by decide : toString (4:Nat) = "4")]
    decide
  have hB2 : extract_table
      (XNode.node "c" "" [XNode.node "x" "" [XNode.node "b" "9" []],
        XNode.node "x" "" [XNode.node "b" "8" []]]) ⟨[], []⟩
      = ([[("b", "9")], [("b", "8")]], ⟨["b"], [("b", ["x", "b"])]⟩) := by
    simp [extract_table, find_row_parent_and_tag, bfsRowSearch,
      first_repeating_child_tag, get_children_by_tag, addToGroups, XNode.children,
      XNode.tag, XNode.text, alook, extractElems, extract_rows_for_element,
      build_container_values, iter_scalar_leaves_node, containerCollect, odSet,
      expandSelections, expandLoop, reachGroups_node, compute_repeating_group_keys,
      cartCount, find_next_node, rowsFromSels, buildRow, containerStep, subtreeStep,
      subtreeNaming, registerCol, disambiguate_column_name, disambiguateFrom, selInsert,
      (by decide : pytrim "1" = "1"), (by decide : pytrim "2" = "2"),
      (by decide : pytrim "9" = "9"), (by decide : pytrim "8" = "8"),
      (by decide : String.intercalate "." ["x", "b"] = "x.b"),
      (by decide : String.intercalate "." ["b"] = "b"),
      (by decide : toString (2:Nat) = "2"), (by decide : toString (3:Nat) = "3"),
      (by decide : toString (4:Nat) = "4")]
  have hA2 : extract_table
      (XNode.node "a" "" [XNode.node "b" "1" [], XNode.node "b" "2" []])
      ⟨["b"], [("b", ["x", "b"])]⟩
      = ([[("b_2", "1")], [("b_3", "2")]],
         ⟨["b", "b_2", "b_3"],
          [("b", ["x", "b"]), ("b_2", ["b"]), ("b_3", ["b"])]⟩) := by
    simp [extract_table, find_row_parent_and_tag, bfsRowSearch,
      first_repeating_child_tag, get_children_by_tag, addToGroups, XNode.children,
      XNode.tag, XNode.text, alook, extractElems, extract_rows_for_element,
      build_container_values, iter_scalar_leaves_node, containerCollect, odSet,
      expandSelections, expandLoop, reachGroups_node, compute_repeating_group_keys,
      cartCount, find_next_node, rowsFromSels, buildRow, containerStep, subtreeStep,
      subtreeNaming, registerCol, disambiguate_column_name, disambiguateFrom, selInsert,
      (by decide : pytrim "1" = "1"), (by decide : pytrim "2" = "2"),
      (by decide : pytrim "9" = "9"), (by decide : pytrim "8" = "8"),
      (by decide : String.intercalate "." ["x", "b"] = "x.b"),
      (by decide : String.intercalate "." ["b"] = "b"),
      (by decide : toString (2:Nat) = "2"), (by decide : toString (3:Nat) = "3"),
      (by decide : toString (4:Nat) = "4")]
    decide
  refine ⟨?_, ?_, by decide, by decide⟩
  · simp [extract_tables, hA1, hB1]
  · simp [extract_tables, hB2, hA2]

/-- Claim C8, amended: processing order (equivalently, the header state a
document is processed against) can change column names and hence the column set
and the per-row bindings; what is invariant is each document's contribution
size — a document yields the same number of rows against any header state. -/
theorem c8_amended_row_count_invariant (root : XNode) (h h' : HState) :
    ((extract_table root h).1).length = ((extract_table root h').1).length := by
  unfold extract_table
  cases hfr : find_row_parent_and_tag root with
  | mk rp rest =>
    obtain ⟨rt, els⟩ := rest
    exact extractElems_length rp rt els h h'
